import Mathlib

/-!
Verification of the selection and keyboard-navigation engine of this
repository: the data model of collection snapshots, the list keyboard
delegate, the `getNextFocusKey` deletion-recovery algorithm and the
Delete/Backspace key handler from
`src/LISTBOX_DELETE_IMPLEMENTATION_PLAN.md`, and the Selection Manager /
Focus Coordinator operations described in the specification.

Keys are modelled as natural numbers (the spec treats them as opaque,
comparable, unique identifiers); a Collection View snapshot is an ordered
list of items carrying a key and a disabled flag.
-/

/-- An item descriptor of a Collection View snapshot: a key and a
disabled flag, in collection iteration order. -/
structure Item where
  key : Nat
  disabled : Bool
deriving DecidableEq, Repr

/-- A Collection View snapshot: an ordered, keyed sequence of items. -/
abbrev Collection := List Item

/-- The keys of a collection, in collection order. -/
def collKeys (c : Collection) : List Nat := c.map Item.key

/-- The enabled (non-disabled) keys of a collection, in collection order. -/
def enabledKeys (c : Collection) : List Nat :=
  (c.filter (fun it => !it.disabled)).map Item.key

/-- The key of the first enabled item of a list of items, if any. -/
def firstEnabled (l : Collection) : Option Nat :=
  (l.find? (fun it => !it.disabled)).map Item.key

/-- Modelled from the spec: the list Keyboard Delegate's `keyBelow` /
`getKeyBelow` query (the delegate implementation is not in `src/`, only
its contract). It returns the nearest enabled key after `k` in collection
order, skipping disabled keys transparently, and `none` when `k` is absent
or no enabled key follows. -/
def getKeyBelow (c : Collection) (k : Nat) : Option Nat :=
  if k ∈ collKeys c then
    firstEnabled ((c.dropWhile (fun it => it.key != k)).drop 1)
  else none

/-- Modelled from the spec: the list Keyboard Delegate's `keyAbove` /
`getKeyAbove` query. It returns the nearest enabled key before `k` in
collection order, skipping disabled keys transparently, and `none` when
`k` is absent or no enabled key precedes it. -/
def getKeyAbove (c : Collection) (k : Nat) : Option Nat :=
  if k ∈ collKeys c then
    firstEnabled ((c.takeWhile (fun it => it.key != k)).reverse)
  else none

/-- Modelled from the spec: the delegate's `firstKey()` query, the first
enabled key of the collection. -/
def getFirstKey (c : Collection) : Option Nat := firstEnabled c

/-- Modelled from the spec: the delegate's `lastKey()` query, the last
enabled key of the collection. -/
def getLastKey (c : Collection) : Option Nat := firstEnabled c.reverse

/-- One of the two skip loops of `getNextFocusKey`
(`while (nextKey && keysToRemove.has(nextKey)) nextKey = step(nextKey)`),
made total with a fuel bound; the algorithm always runs it with fuel
`c.length`, which is proved sufficient below. `step` is
`delegate.getKeyBelow` for the forward loop and `delegate.getKeyAbove`
for the backward one. -/
def skipRemoved (step : Nat → Option Nat) (r : List Nat) :
    Nat → Option Nat → Option Nat
  | _, none => none
  | 0, some k => if r.contains k then none else some k
  | fuel + 1, some k =>
      if r.contains k then skipRemoved step r fuel (step k) else some k

/-- The plan's `getLastKey(keysToRemove, delegate)` helper: the removed
key of greatest index in collection (visual) order, if any removed key is
present in the collection. -/
def lastRemovedKey (c : Collection) (keysToRemove : List Nat) : Option Nat :=
  ((c.filter (fun it => keysToRemove.contains it.key)).getLast?).map Item.key

/-- The plan's `getFirstKey(keysToRemove, delegate)` helper: the removed
key of least index in collection order, if any removed key is present. -/
def firstRemovedKey (c : Collection) (keysToRemove : List Nat) : Option Nat :=
  ((c.filter (fun it => keysToRemove.contains it.key)).head?).map Item.key

/-- The deletion-recovery algorithm `getNextFocusKey` from
`src/LISTBOX_DELETE_IMPLEMENTATION_PLAN.md` (lines 113-137): walk forward
from the last removed key via `getKeyBelow`, skipping keys still in
`keysToRemove`; if that reaches the end, walk backward from the first
removed key via `getKeyAbove` under the same skip rule. When no removed
key is in the collection the JS helpers yield `undefined` and the delegate
queries return `null`, modelled by `Option.bind`. -/
def getNextFocusKey (c : Collection) (keysToRemove : List Nat) : Option Nat :=
  let nextKey := skipRemoved (getKeyBelow c) keysToRemove c.length
      ((lastRemovedKey c keysToRemove).bind (getKeyBelow c))
  match nextKey with
  | some k => some k
  | none =>
      skipRemoved (getKeyAbove c) keysToRemove c.length
        ((firstRemovedKey c keysToRemove).bind (getKeyAbove c))

/-- An item survives a deletion request when it is enabled and its key is
not in the removed set. -/
def survives (r : List Nat) (it : Item) : Bool :=
  !it.disabled && !(r.contains it.key)

/-- The items strictly after the (first occurrence of the) key `k`, in
collection order. -/
def afterKey (c : Collection) (k : Nat) : Collection :=
  (c.dropWhile (fun it => it.key != k)).drop 1

/-- The items strictly before the (first occurrence of the) key `k`, in
collection order. -/
def beforeKey (c : Collection) (k : Nat) : Collection :=
  c.takeWhile (fun it => it.key != k)

/-- Stated from the spec's words, for comparison with `getNextFocusKey`:
Candidate A is the first key after the removed key of greatest
collection-order index that is enabled and not itself in the removed set. -/
def candidateA (c : Collection) (r : List Nat) : Option Nat :=
  match lastRemovedKey c r with
  | none => none
  | some k => ((afterKey c k).find? (survives r)).map Item.key

/-- Stated from the spec's words: Candidate B is the first surviving
(enabled, not removed) key before the removed key of least index, walking
backward. -/
def candidateB (c : Collection) (r : List Nat) : Option Nat :=
  match firstRemovedKey c r with
  | none => none
  | some k => (((beforeKey c k).reverse).find? (survives r)).map Item.key

/-- Stated from the spec's words: the staged focus target is Candidate A
if found, else Candidate B, else null. -/
def specFocusTarget (c : Collection) (r : List Nat) : Option Nat :=
  match candidateA c r with
  | some k => some k
  | none => candidateB c r

/-- Example collection `[A,B,C,D,E]` (keys 0..4, none disabled). -/
def exABCDE : Collection :=
  [⟨0, false⟩, ⟨1, false⟩, ⟨2, false⟩, ⟨3, false⟩, ⟨4, false⟩]

/-- Example collection `[A,B,C]` (keys 0..2, none disabled). -/
def exABC : Collection := [⟨0, false⟩, ⟨1, false⟩, ⟨2, false⟩]

/-- Example collection `[A]` (key 0, enabled). -/
def exA : Collection := [⟨0, false⟩]

/-- Example collection `[A,B,C,D]` (keys 0..3, none disabled). -/
def exABCD : Collection := [⟨0, false⟩, ⟨1, false⟩, ⟨2, false⟩, ⟨3, false⟩]

/-- Example collection `[A, B(disabled), C]` (keys 0..2). -/
def exDis : Collection := [⟨0, false⟩, ⟨1, true⟩, ⟨2, false⟩]

/-- The selection mode of the Selection Manager. -/
inductive SelectionMode
  | none
  | single
  | multiple
deriving DecidableEq, Repr

/-- A change notification emitted to the host component. -/
inductive Event
  | selectionChanged (keys : List Nat)
  | focusChanged (key : Option Nat)
  | removeRequested (keys : List Nat)
deriving DecidableEq, Repr

/-- The engine state: the current Collection View snapshot (read-only to
the engine, replaced wholesale by the host), the SelectionState
(`mode`, `selectedKeys`, `anchorKey`), the FocusState (`focusedKey`) and
the `allowsRemoval` configuration flag (whether the host declared an
`onRemove` capability). `selectedKeys` is a set represented as a
duplicate-free list. -/
structure Engine where
  coll : Collection
  mode : SelectionMode
  selectedKeys : List Nat
  anchorKey : Option Nat
  focusedKey : Option Nat
  allowsRemoval : Bool
deriving DecidableEq, Repr

/-- An engine operation: a Selection Manager operation, a focus
navigation, the Delete/Backspace handler, or a Collection View snapshot
replacement supplied by the host. -/
inductive Op
  | replaceSel (k : Nat)
  | toggleSel (k : Nat)
  | extendSel (k : Nat)
  | selectAll
  | clearSel
  | navDown
  | navUp
  | navHome
  | navEnd
  | deleteSelected
  | snapshot (c : Collection)
deriving DecidableEq, Repr

/-- The collection-order index of the first occurrence of key `k`
(equals `c.length` when `k` is absent). -/
def keyIdx (c : Collection) (k : Nat) : Nat :=
  (c.takeWhile (fun it => it.key != k)).length

/-- Modelled from the spec: the inclusive ordered range of keys between
`a` and `b` in collection order, computed via delegate adjacency — which
skips disabled keys transparently, so the range holds exactly the enabled
keys of the inclusive collection-order slice between the two endpoints.
Empty when either endpoint is absent from the collection. -/
def rangeKeys (c : Collection) (a b : Nat) : List Nat :=
  if a ∈ collKeys c ∧ b ∈ collKeys c then
    let i := keyIdx c a
    let j := keyIdx c b
    if i ≤ j then
      (((c.drop i).take (j + 1 - i)).filter (fun it => !it.disabled)).map Item.key
    else
      (((c.drop j).take (i + 1 - j)).filter (fun it => !it.disabled)).map Item.key
  else []

/-- Modelled from the spec: `replaceSelection(key)` sets
`selectedKeys = [key]` and `anchorKey = key`; it is a silent no-op when
the mode is `none`, the key is absent from the collection (stale-key
policy) or the key is disabled. A `selectionChanged` notification is
emitted exactly when the resulting set changed. -/
def replaceSelection (k : Nat) (e : Engine) : Engine × List Event :=
  if e.mode = SelectionMode.none ∨ k ∉ enabledKeys e.coll then (e, [])
  else
    ({e with selectedKeys := [k], anchorKey := some k},
      if e.selectedKeys = [k] then [] else [Event.selectionChanged [k]])

/-- Modelled from the spec: `toggleSelection(key)` flips membership of the
key; in `multiple` mode it updates the anchor to the key when added (and
repairs the anchor to null when the anchor key itself is removed, keeping
the anchor a member of the selection as the spec's invariant requires);
in `single` mode it has independent toggle semantics — toggling the
already-selected item clears the selection, toggling another item selects
it. Silent no-op for an absent or disabled key or in mode `none`. -/
def toggleSelection (k : Nat) (e : Engine) : Engine × List Event :=
  if k ∉ enabledKeys e.coll then (e, [])
  else
    match e.mode with
    | SelectionMode.none => (e, [])
    | SelectionMode.single =>
        if k ∈ e.selectedKeys then
          ({e with selectedKeys := [], anchorKey := none},
            [Event.selectionChanged []])
        else
          ({e with selectedKeys := [k], anchorKey := some k},
            [Event.selectionChanged [k]])
    | SelectionMode.multiple =>
        if k ∈ e.selectedKeys then
          let a := if e.anchorKey = some k then none else e.anchorKey
          ({e with selectedKeys := e.selectedKeys.erase k, anchorKey := a},
            [Event.selectionChanged (e.selectedKeys.erase k)])
        else
          ({e with selectedKeys := k :: e.selectedKeys, anchorKey := some k},
            [Event.selectionChanged (k :: e.selectedKeys)])

/-- Modelled from the spec: `extendSelection(fromAnchor, toKey, delegate)`
is valid only in `multiple` mode; it computes the inclusive ordered range
between `anchorKey` and `toKey` using delegate adjacency and sets
`selectedKeys` to that range, replacing the entire prior selection and
leaving the anchor unchanged. Silent no-op in any other mode
(InvalidModeOperation), when the anchor is null, or when either endpoint
is absent from the collection or disabled. -/
def extendSelection (b : Nat) (e : Engine) : Engine × List Event :=
  if e.mode ≠ SelectionMode.multiple then (e, [])
  else if b ∉ enabledKeys e.coll then (e, [])
  else
    match e.anchorKey with
    | none => (e, [])
    | some a =>
        if a ∉ collKeys e.coll then (e, [])
        else
          let r := rangeKeys e.coll a b
          ({e with selectedKeys := r},
            if e.selectedKeys = r then [] else [Event.selectionChanged r])

/-- Modelled from the spec: `selectAll()` is valid only in `multiple`
mode and sets `selectedKeys` to all enabled keys of the collection. -/
def selectAllOp (e : Engine) : Engine × List Event :=
  if e.mode ≠ SelectionMode.multiple then (e, [])
  else
    let s := enabledKeys e.coll
    ({e with selectedKeys := s},
      if e.selectedKeys = s then [] else [Event.selectionChanged s])

/-- Modelled from the spec: `clearSelection()` empties `selectedKeys` and
sets `anchorKey` to null; a `selectionChanged` notification is emitted
exactly when the selected set changed. -/
def clearSelection (e : Engine) : Engine × List Event :=
  ({e with selectedKeys := [], anchorKey := none},
    if e.selectedKeys = [] then [] else [Event.selectionChanged []])

/-- Modelled from the spec: on a directional key the Router queries the
delegate for the neighbor of `focusedKey`; if found the focus moves there
and `focusChanged` is emitted, otherwise (boundary, or no current focus)
focus is unchanged. -/
def navigate (query : Option Nat) (e : Engine) : Engine × List Event :=
  match query with
  | some k =>
      if e.focusedKey = some k then (e, [])
      else ({e with focusedKey := some k}, [Event.focusChanged (some k)])
  | none => (e, [])

/-- The Delete/Backspace handler from
`src/LISTBOX_DELETE_IMPLEMENTATION_PLAN.md` (lines 72-90): when an
`onRemove` capability is declared and the selection is non-empty, it
computes the next focus key, emits `removeRequested` with a copy of the
selected keys, and — when the computed key is non-null — synchronously
sets the focused key to it; the selection itself is not mutated. -/
def deleteSelectedOp (e : Engine) : Engine × List Event :=
  if e.allowsRemoval = true ∧ e.selectedKeys ≠ [] then
    let keysToRemove := e.selectedKeys
    match getNextFocusKey e.coll keysToRemove with
    | some k =>
        ({e with focusedKey := some k},
          [Event.removeRequested keysToRemove, Event.focusChanged (some k)])
    | none => (e, [Event.removeRequested keysToRemove])
  else (e, [])

/-- Modelled from the spec: on every Collection View replacement both
states are revalidated against the new key set — selected keys no longer
present (or disabled in the new snapshot) are dropped, a dangling anchor
is cleared, and a focused key absent from the new snapshot is repaired to
the first key of the new snapshot (null when the new snapshot has no
enabled key). -/
def applySnapshot (c : Collection) (e : Engine) : Engine × List Event :=
  let sel := e.selectedKeys.filter (fun k => (enabledKeys c).contains k)
  let anchor := match e.anchorKey with
    | some a => if a ∈ sel then some a else none
    | none => none
  let focus := match e.focusedKey with
    | some k => if k ∈ collKeys c then some k else getFirstKey c
    | none => none
  ({coll := c, mode := e.mode, selectedKeys := sel, anchorKey := anchor,
      focusedKey := focus, allowsRemoval := e.allowsRemoval},
    (if e.selectedKeys = sel then [] else [Event.selectionChanged sel]) ++
      (if e.focusedKey = focus then [] else [Event.focusChanged focus]))

/-- Dispatch of one engine operation. -/
def apply1 : Op → Engine → Engine × List Event
  | Op.replaceSel k, e => replaceSelection k e
  | Op.toggleSel k, e => toggleSelection k e
  | Op.extendSel k, e => extendSelection k e
  | Op.selectAll, e => selectAllOp e
  | Op.clearSel, e => clearSelection e
  | Op.navDown, e => navigate ((e.focusedKey).bind (getKeyBelow e.coll)) e
  | Op.navUp, e => navigate ((e.focusedKey).bind (getKeyAbove e.coll)) e
  | Op.navHome, e => navigate (getFirstKey e.coll) e
  | Op.navEnd, e => navigate (getLastKey e.coll) e
  | Op.deleteSelected, e => deleteSelectedOp e
  | Op.snapshot c, e => applySnapshot c e

/-- A sequence of operations, applied left to right (notifications
discarded). -/
def applyOps (ops : List Op) (e : Engine) : Engine :=
  ops.foldl (fun s op => (apply1 op s).1) e

/-- The SelectionState invariant of the spec: selected keys are members
of the current collection and never disabled, the selection is a set
(duplicate-free), `single` mode holds at most one selected key, `none`
mode holds none, and the anchor is null or a member of the selection.
The collection's keys are duplicate-free, as the data model guarantees
(keys are unique identifiers). -/
def SelInv (e : Engine) : Prop :=
  (∀ k ∈ e.selectedKeys, k ∈ enabledKeys e.coll) ∧
  e.selectedKeys.Nodup ∧
  (e.mode = SelectionMode.single → e.selectedKeys.length ≤ 1) ∧
  (e.mode = SelectionMode.none → e.selectedKeys = []) ∧
  (∀ a, e.anchorKey = some a → a ∈ e.selectedKeys) ∧
  (collKeys e.coll).Nodup

instance (e : Engine) : Decidable (SelInv e) := by
  unfold SelInv; infer_instance

/-- The FocusState invariant of the spec: the focused key is null or the
key of an item present in the current Collection View. -/
def FocusInv (e : Engine) : Prop :=
  ∀ k, e.focusedKey = some k → k ∈ collKeys e.coll

instance (e : Engine) : Decidable (FocusInv e) := by
  unfold FocusInv
  exact decidable_of_iff
    (∀ k ∈ (e.focusedKey).toList, k ∈ collKeys e.coll)
    (by cases h : e.focusedKey <;> simp [h])

/-- Well-formedness of an operation's input: a snapshot supplied by the
host carries unique keys, as the data model guarantees. -/
def OpWf : Op → Prop
  | Op.snapshot c => (collKeys c).Nodup
  | _ => True

instance (op : Op) : Decidable (OpWf op) := by
  unfold OpWf; cases op <;> infer_instance

lemma mem_collKeys_split (c : Collection) (k : Nat) (h : k ∈ collKeys c) :
    ∃ pre it rest, c = pre ++ it :: rest ∧ it.key = k ∧ ∀ x ∈ pre, x.key ≠ k := by
  induction c with
  | nil => simp [collKeys] at h
  | cons y ys ih =>
    by_cases hy : y.key = k
    · exact ⟨[], y, ys, rfl, hy, by simp⟩
    · have h' : k ∈ collKeys ys := by
        simp [collKeys] at h
        rcases h with h | h
        · exact absurd h.symm hy
        · simpa [collKeys] using h
      obtain ⟨pre, it, rest, hc, hk, hpre⟩ := ih h'
      refine ⟨y :: pre, it, rest, by simp [hc], hk, ?_⟩
      intro x hx
      rcases List.mem_cons.mp hx with rfl | hx
      · exact hy
      · exact hpre x hx

lemma dropWhile_keyNe (pre : Collection) (it : Item) (rest : Collection)
    (h : ∀ x ∈ pre, x.key ≠ it.key) :
    (pre ++ it :: rest).dropWhile (fun x => x.key != it.key) = it :: rest := by
  induction pre with
  | nil => simp [List.dropWhile]
  | cons y ys ih =>
    have hy : y.key ≠ it.key := h y (by simp)
    simp only [List.cons_append, List.dropWhile_cons]
    rw [if_pos (by simpa using hy)]
    exact ih (fun x hx => h x (by simp [hx]))

lemma takeWhile_keyNe (pre : Collection) (it : Item) (rest : Collection)
    (h : ∀ x ∈ pre, x.key ≠ it.key) :
    (pre ++ it :: rest).takeWhile (fun x => x.key != it.key) = pre := by
  induction pre with
  | nil => simp [List.takeWhile]
  | cons y ys ih =>
    have hy : y.key ≠ it.key := h y (by simp)
    simp only [List.cons_append, List.takeWhile_cons]
    rw [if_pos (by simpa using hy)]
    rw [ih (fun x hx => h x (by simp [hx]))]

lemma nodup_split_left (c : Collection) (pre : Collection) (it : Item)
    (rest : Collection) (hc : c = pre ++ it :: rest)
    (hnd : (collKeys c).Nodup) : ∀ x ∈ pre, x.key ≠ it.key := by
  subst hc
  simp only [collKeys, List.map_append, List.map_cons, List.nodup_append] at hnd
  intro x hx hkey
  exact hnd.2.2 (List.mem_map_of_mem Item.key hx) (by simp [hkey])

lemma nodup_split_right (c : Collection) (pre : Collection) (it : Item)
    (rest : Collection) (hc : c = pre ++ it :: rest)
    (hnd : (collKeys c).Nodup) : ∀ x ∈ rest, x.key ≠ it.key := by
  subst hc
  simp only [collKeys, List.map_append, List.map_cons, List.nodup_append,
    List.nodup_cons] at hnd
  intro x hx hkey
  exact hnd.2.1.1 (hkey ▸ List.mem_map_of_mem Item.key hx)

lemma getKeyBelow_split (c : Collection) (pre : Collection) (it : Item)
    (rest : Collection) (hc : c = pre ++ it :: rest)
    (hpre : ∀ x ∈ pre, x.key ≠ it.key) :
    getKeyBelow c it.key = firstEnabled rest := by
  have hmem : it.key ∈ collKeys c := by simp [collKeys, hc]
  rw [getKeyBelow, if_pos hmem, hc, dropWhile_keyNe pre it rest hpre]
  simp

lemma getKeyAbove_split (c : Collection) (pre : Collection) (it : Item)
    (rest : Collection) (hc : c = pre ++ it :: rest)
    (hpre : ∀ x ∈ pre, x.key ≠ it.key) :
    getKeyAbove c it.key = firstEnabled pre.reverse := by
  have hmem : it.key ∈ collKeys c := by simp [collKeys, hc]
  rw [getKeyAbove, if_pos hmem, hc, takeWhile_keyNe pre it rest hpre]

lemma skipRemoved_none (step : Nat → Option Nat) (r : List Nat) (fuel : Nat) :
    skipRemoved step r fuel none = none := by
  cases fuel <;> rfl

lemma skipRemoved_getKeyBelow (c : Collection) (r : List Nat)
    (hnd : (collKeys c).Nodup) :
    ∀ (suf pre : Collection) (fuel : Nat), c = pre ++ suf → suf.length ≤ fuel →
    skipRemoved (getKeyBelow c) r fuel (firstEnabled suf) =
      (suf.find? (survives r)).map Item.key := by
  intro suf
  induction suf with
  | nil =>
    intro pre fuel hc hf
    simp [firstEnabled, skipRemoved_none]
  | cons it rest ih =>
    intro pre fuel hc hf
    cases fuel with
    | zero => simp at hf
    | succ f =>
      cases hdis : it.disabled with
      | true =>
        have h1 : firstEnabled (it :: rest) = firstEnabled rest := by
          simp [firstEnabled, List.find?_cons, hdis]
        have h2 : List.find? (survives r) (it :: rest) =
            List.find? (survives r) rest := by
          simp [List.find?_cons, survives, hdis]
        rw [h1, h2]
        exact ih (pre ++ [it]) (f + 1) (by simp [hc]) (by simp at hf ⊢; omega)
      | false =>
        have h1 : firstEnabled (it :: rest) = some it.key := by
          simp [firstEnabled, List.find?_cons, hdis]
        rw [h1]
        cases hr : r.contains it.key with
        | true =>
          have hrm : it.key ∈ r := by simpa using hr
          have hstep : getKeyBelow c it.key = firstEnabled rest :=
            getKeyBelow_split c pre it rest hc
              (nodup_split_left c pre it rest hc hnd)
          have h2 : List.find? (survives r) (it :: rest) =
              List.find? (survives r) rest := by
            simp [List.find?_cons, survives, hdis, hrm]
          rw [h2]
          show (if r.contains it.key then
              skipRemoved (getKeyBelow c) r f (getKeyBelow c it.key)
            else some it.key) = _
          rw [if_pos (by simpa using hr), hstep]
          exact ih (pre ++ [it]) f (by simp [hc]) (by simp at hf ⊢; omega)
        | false =>
          have hrm : it.key ∉ r := by simpa using hr
          have h2 : List.find? (survives r) (it :: rest) = some it := by
            simp [List.find?_cons, survives, hdis, hrm]
          rw [h2]
          show (if r.contains it.key then
              skipRemoved (getKeyBelow c) r f (getKeyBelow c it.key)
            else some it.key) = _
          rw [if_neg (by simpa using hr)]
          rfl

lemma collKeys_reverse (c : Collection) : collKeys c.reverse = (collKeys c).reverse := by
  simp [collKeys]

lemma getKeyAbove_eq_reverse (c : Collection) (hnd : (collKeys c).Nodup) (k : Nat) :
    getKeyAbove c k = getKeyBelow c.reverse k := by
  by_cases hm : k ∈ collKeys c
  · obtain ⟨pre, it, rest, hc, hk, hpre⟩ := mem_collKeys_split c k hm
    subst hk
    have h1 := getKeyAbove_split c pre it rest hc hpre
    have hrev : c.reverse = rest.reverse ++ it :: pre.reverse := by
      simp [hc]
    have hpre2 : ∀ x ∈ rest.reverse, x.key ≠ it.key := fun x hx =>
      nodup_split_right c pre it rest hc hnd x (List.mem_reverse.mp hx)
    have h2 := getKeyBelow_split c.reverse rest.reverse it pre.reverse hrev hpre2
    rw [h1, h2]
  · have hm2 : k ∉ collKeys c.reverse := by
      rw [collKeys_reverse]
      simpa using hm
    rw [getKeyAbove, if_neg hm, getKeyBelow, if_neg hm2]

lemma mem_of_getLast?_filter (c : Collection) (p : Item → Bool) (it : Item)
    (h : (c.filter p).getLast? = some it) : it ∈ c ∧ p it = true := by
  have hmem : it ∈ c.filter p := by
    obtain ⟨hne, heq⟩ := List.mem_getLast?_eq_getLast (l := c.filter p) (x := it) h
    exact heq ▸ List.getLast_mem hne
  exact ⟨List.mem_of_mem_filter hmem, List.of_mem_filter hmem⟩

lemma mem_of_head?_filter (c : Collection) (p : Item → Bool) (it : Item)
    (h : (c.filter p).head? = some it) : it ∈ c ∧ p it = true := by
  have hmem : it ∈ c.filter p := by
    cases hl : c.filter p with
    | nil => rw [hl] at h; simp at h
    | cons y ys =>
        rw [hl] at h
        simp at h
        simp [hl, h]
  exact ⟨List.mem_of_mem_filter hmem, List.of_mem_filter hmem⟩

lemma lastRemovedKey_mem (c : Collection) (r : List Nat) (k : Nat)
    (h : lastRemovedKey c r = some k) : k ∈ collKeys c := by
  rw [lastRemovedKey] at h
  cases hl : (c.filter (fun it => r.contains it.key)).getLast? with
  | none => rw [hl] at h; simp at h
  | some it =>
      rw [hl] at h
      simp at h
      obtain ⟨hmem, _⟩ := mem_of_getLast?_filter c _ it hl
      exact h ▸ List.mem_map_of_mem Item.key hmem

lemma firstRemovedKey_mem (c : Collection) (r : List Nat) (k : Nat)
    (h : firstRemovedKey c r = some k) : k ∈ collKeys c := by
  rw [firstRemovedKey] at h
  cases hl : (c.filter (fun it => r.contains it.key)).head? with
  | none => rw [hl] at h; simp at h
  | some it =>
      rw [hl] at h
      simp at h
      obtain ⟨hmem, _⟩ := mem_of_head?_filter c _ it hl
      exact h ▸ List.mem_map_of_mem Item.key hmem

lemma firstRemovedKey_none_of_lastRemovedKey_none (c : Collection) (r : List Nat)
    (h : lastRemovedKey c r = none) : firstRemovedKey c r = none := by
  rw [lastRemovedKey] at h
  have h2 : (c.filter (fun it => r.contains it.key)).getLast? = none :=
    Option.map_eq_none.mp h
  rw [List.getLast?_eq_none_iff] at h2
  rw [firstRemovedKey, h2]
  rfl

lemma afterKey_split (c : Collection) (pre : Collection) (it : Item)
    (rest : Collection) (hc : c = pre ++ it :: rest)
    (hpre : ∀ x ∈ pre, x.key ≠ it.key) : afterKey c it.key = rest := by
  rw [afterKey, hc, dropWhile_keyNe pre it rest hpre]
  rfl

lemma beforeKey_split (c : Collection) (pre : Collection) (it : Item)
    (rest : Collection) (hc : c = pre ++ it :: rest)
    (hpre : ∀ x ∈ pre, x.key ≠ it.key) : beforeKey c it.key = pre := by
  rw [beforeKey, hc, takeWhile_keyNe pre it rest hpre]

lemma forward_eq_candidateA (c : Collection) (r : List Nat)
    (hnd : (collKeys c).Nodup) :
    skipRemoved (getKeyBelow c) r c.length
      ((lastRemovedKey c r).bind (getKeyBelow c)) = candidateA c r := by
  cases hlast : lastRemovedKey c r with
  | none => simp [skipRemoved_none, candidateA, hlast]
  | some lk =>
    obtain ⟨pre, it, rest, hc, hk, hpre⟩ :=
      mem_collKeys_split c lk (lastRemovedKey_mem c r lk hlast)
    subst hk
    have hbelow : getKeyBelow c it.key = firstEnabled rest :=
      getKeyBelow_split c pre it rest hc hpre
    have hafter : afterKey c it.key = rest :=
      afterKey_split c pre it rest hc hpre
    have hlen : rest.length ≤ c.length := by
      have : c.length = pre.length + (rest.length + 1) := by rw [hc]; simp
      omega
    have hmain := skipRemoved_getKeyBelow c r hnd rest (pre ++ [it]) c.length
      (by simp [hc]) hlen
    simp only [Option.some_bind, hbelow, hmain, candidateA, hlast, hafter]

lemma backward_eq_candidateB (c : Collection) (r : List Nat)
    (hnd : (collKeys c).Nodup) :
    skipRemoved (getKeyAbove c) r c.length
      ((firstRemovedKey c r).bind (getKeyAbove c)) = candidateB c r := by
  cases hfirst : firstRemovedKey c r with
  | none => simp [skipRemoved_none, candidateB, hfirst]
  | some fk =>
    obtain ⟨pre, it, rest, hc, hk, hpre⟩ :=
      mem_collKeys_split c fk (firstRemovedKey_mem c r fk hfirst)
    subst hk
    have hbefore : beforeKey c it.key = pre :=
      beforeKey_split c pre it rest hc hpre
    have hstepeq : getKeyAbove c = getKeyBelow c.reverse :=
      funext (getKeyAbove_eq_reverse c hnd)
    have hndrev : (collKeys c.reverse).Nodup := by
      rw [collKeys_reverse]
      exact List.nodup_reverse.mpr hnd
    have hpre2 : ∀ x ∈ rest.reverse, x.key ≠ it.key := fun x hx =>
      nodup_split_right c pre it rest hc hnd x (List.mem_reverse.mp hx)
    have hbelowrev : getKeyBelow c.reverse it.key = firstEnabled pre.reverse :=
      getKeyBelow_split c.reverse rest.reverse it pre.reverse (by simp [hc])
        hpre2
    have hrev : c.reverse = (rest.reverse ++ [it]) ++ pre.reverse := by
      simp [hc]
    have hlen : pre.reverse.length ≤ c.length := by
      have : c.length = pre.length + (rest.length + 1) := by rw [hc]; simp
      simp only [List.length_reverse]
      omega
    have hmain := skipRemoved_getKeyBelow c.reverse r hndrev pre.reverse
      (rest.reverse ++ [it]) c.length hrev hlen
    simp only [Option.some_bind, hstepeq, hbelowrev, hmain, candidateB, hfirst,
      hbefore]

/-- C1: for every collection snapshot (with the unique keys the data model
guarantees) and every removed-key set, `getNextFocusKey` computes exactly
the staged focus target the spec describes: Candidate A (first surviving
enabled key after the removed key of greatest index), else Candidate B
(first surviving enabled key before the removed key of least index), else
null; in particular deleting `{B,C}` from `[A,B,C,D,E]` stages `D`,
deleting `{B,C}` from `[A,B,C]` stages `A`, and deleting `{A}` from `[A]`
stages null. -/
theorem getNextFocusKey_matches_spec (c : Collection) (r : List Nat)
    (hnd : (collKeys c).Nodup) :
    getNextFocusKey c r = specFocusTarget c r ∧
    getNextFocusKey exABCDE [1, 2] = some 3 ∧
    getNextFocusKey exABC [1, 2] = some 0 ∧
    getNextFocusKey exA [0] = none := by
  refine ⟨?_, by decide, by decide, by decide⟩
  simp only [getNextFocusKey, forward_eq_candidateA c r hnd,
    backward_eq_candidateB c r hnd]
  rfl

/-- C1 witness: the general theorem applied to the `[A,B,C,D,E]` example,
together with the three concrete staged targets. -/
theorem getNextFocusKey_matches_spec_witness :
    ((collKeys exABCDE).Nodup ∧
      getNextFocusKey exABCDE [1, 2] = specFocusTarget exABCDE [1, 2]) ∧
    specFocusTarget exABCDE [1, 2] = some 3 :=
  ⟨⟨by decide, (getNextFocusKey_matches_spec exABCDE [1, 2] (by decide)).1⟩,
    by decide⟩

lemma skipRemoved_not_removed (step : Nat → Option Nat) (r : List Nat) :
    ∀ (fuel : Nat) (x : Option Nat) (k : Nat),
      skipRemoved step r fuel x = some k → k ∉ r := by
  intro fuel
  induction fuel with
  | zero =>
    intro x k h
    cases x with
    | none => simp [skipRemoved_none] at h
    | some k0 =>
      simp [skipRemoved] at h
      exact h.2 ▸ h.1
  | succ f ih =>
    intro x k h
    cases x with
    | none => simp [skipRemoved_none] at h
    | some k0 =>
      by_cases hm : k0 ∈ r
      · have he : skipRemoved step r (f + 1) (some k0) =
            skipRemoved step r f (step k0) := by
          simp [skipRemoved, hm]
        rw [he] at h
        exact ih (step k0) k h
      · have he : skipRemoved step r (f + 1) (some k0) = some k0 := by
          simp [skipRemoved, hm]
        rw [he] at h
        obtain rfl : k0 = k := by injection h
        exact hm

/-- C9: whenever `getNextFocusKey` returns a non-null key, that key is not
a member of the removed set — the staged focus target always survives the
requested removal. -/
theorem getNextFocusKey_survives (c : Collection) (r : List Nat) (k : Nat)
    (h : getNextFocusKey c r = some k) : k ∉ r := by
  simp only [getNextFocusKey] at h
  cases hf : skipRemoved (getKeyBelow c) r c.length
      ((lastRemovedKey c r).bind (getKeyBelow c)) with
  | some k0 =>
    rw [hf] at h
    simp at h
    exact h ▸ skipRemoved_not_removed (getKeyBelow c) r c.length _ k0 hf
  | none =>
    rw [hf] at h
    exact skipRemoved_not_removed (getKeyAbove c) r c.length _ k h

/-- C9 witness: deleting `{B,C}` from `[A,B,C]` stages key `0` (item `A`),
which is not among the removed keys. -/
theorem getNextFocusKey_survives_witness :
    getNextFocusKey exABC [1, 2] = some 0 ∧ 0 ∉ ([1, 2] : List Nat) :=
  ⟨by decide, getNextFocusKey_survives exABC [1, 2] 0 (by decide)⟩

/-- C10: both skip loops of `getNextFocusKey` terminate within as many
steps as the collection has keys: on a collection with unique keys,
running either loop with any fuel of at least `c.length` yields the same
result as running it with fuel exactly `c.length` — the loop has already
reached a key outside the removed set or the end of the collection. -/
theorem skipRemoved_fuel_stable (c : Collection) (r : List Nat)
    (hnd : (collKeys c).Nodup) (fuel : Nat) (hf : c.length ≤ fuel) (k0 : Nat) :
    skipRemoved (getKeyBelow c) r fuel (getKeyBelow c k0) =
      skipRemoved (getKeyBelow c) r c.length (getKeyBelow c k0) ∧
    skipRemoved (getKeyAbove c) r fuel (getKeyAbove c k0) =
      skipRemoved (getKeyAbove c) r c.length (getKeyAbove c k0) := by
  constructor
  · by_cases hm : k0 ∈ collKeys c
    · obtain ⟨pre, it, rest, hc, hk, hpre⟩ := mem_collKeys_split c k0 hm
      subst hk
      rw [getKeyBelow_split c pre it rest hc hpre]
      have hlen : rest.length ≤ c.length := by
        have : c.length = pre.length + (rest.length + 1) := by rw [hc]; simp
        omega
      rw [skipRemoved_getKeyBelow c r hnd rest (pre ++ [it]) fuel
          (by simp [hc]) (le_trans hlen hf),
        skipRemoved_getKeyBelow c r hnd rest (pre ++ [it]) c.length
          (by simp [hc]) hlen]
    · rw [getKeyBelow, if_neg hm, skipRemoved_none, skipRemoved_none]
  · by_cases hm : k0 ∈ collKeys c
    · obtain ⟨pre, it, rest, hc, hk, hpre⟩ := mem_collKeys_split c k0 hm
      subst hk
      have hstepeq : getKeyAbove c = getKeyBelow c.reverse :=
        funext (getKeyAbove_eq_reverse c hnd)
      have hndrev : (collKeys c.reverse).Nodup := by
        rw [collKeys_reverse]
        exact List.nodup_reverse.mpr hnd
      have hpre2 : ∀ x ∈ rest.reverse, x.key ≠ it.key := fun x hx =>
        nodup_split_right c pre it rest hc hnd x (List.mem_reverse.mp hx)
      have hbelowrev : getKeyBelow c.reverse it.key = firstEnabled pre.reverse :=
        getKeyBelow_split c.reverse rest.reverse it pre.reverse (by simp [hc])
          hpre2
      have hrev : c.reverse = (rest.reverse ++ [it]) ++ pre.reverse := by
        simp [hc]
      have hlen : pre.reverse.length ≤ c.length := by
        have : c.length = pre.length + (rest.length + 1) := by rw [hc]; simp
        simp only [List.length_reverse]
        omega
      rw [hstepeq, hbelowrev,
        skipRemoved_getKeyBelow c.reverse r hndrev pre.reverse
          (rest.reverse ++ [it]) fuel hrev (le_trans hlen hf),
        skipRemoved_getKeyBelow c.reverse r hndrev pre.reverse
          (rest.reverse ++ [it]) c.length hrev hlen]
    · rw [getKeyAbove, if_neg hm, skipRemoved_none, skipRemoved_none]

/-- C10 witness: on `[A,B,C]` with removed set `{B}`, both loops give the
same answer with fuel `5` as with fuel `3` (the collection size). -/
theorem skipRemoved_fuel_stable_witness :
    skipRemoved (getKeyBelow exABC) [1] 5 (getKeyBelow exABC 0) =
      skipRemoved (getKeyBelow exABC) [1] exABC.length (getKeyBelow exABC 0) ∧
    skipRemoved (getKeyAbove exABC) [1] 5 (getKeyAbove exABC 0) =
      skipRemoved (getKeyAbove exABC) [1] exABC.length (getKeyAbove exABC 0) :=
  skipRemoved_fuel_stable exABC [1] (by decide) 5 (by decide) 0

/-- A concrete engine state over `[A,B,C]` with item `B` (key 1) selected
and focused, multiple selection mode and a declared remove capability. -/
def exEngineC2 : Engine :=
  { coll := exABC, mode := SelectionMode.multiple, selectedKeys := [1],
    anchorKey := some 1, focusedKey := some 1, allowsRemoval := true }

/-- C2 counterexample: the Delete/Backspace handler of the implementation
plan does mutate FocusState synchronously — deleting selected `{B}` from
`[A,B,C]` moves the focused key from `B` to `C` in the same keystroke,
before any new Collection View snapshot arrives, so the claim that
`focusedKey` is unchanged until the next snapshot (staged as
`pendingFocusKey`) is false at this input. -/
theorem deleteSelected_mutates_focus_synchronously :
    (apply1 Op.deleteSelected exEngineC2).1.focusedKey ≠
      exEngineC2.focusedKey ∧
    (apply1 Op.deleteSelected exEngineC2).1.focusedKey = some 2 := by decide

/-- C2 amended: pressing Delete/Backspace with a non-empty selection and a
declared remove capability emits `removeRequested(keysToRemove)` and does
not mutate the selection, anchor, mode or collection synchronously — but
it applies the computed focus target immediately: when `getNextFocusKey`
returns a non-null key, `focusedKey` is synchronously set to it (there is
no `pendingFocusKey` staging in the code), and when it returns null the
focus is unchanged. -/
theorem deleteSelected_behavior (e : Engine) (hr : e.allowsRemoval = true)
    (hs : e.selectedKeys ≠ []) :
    (apply1 Op.deleteSelected e).1.selectedKeys = e.selectedKeys ∧
    (apply1 Op.deleteSelected e).1.anchorKey = e.anchorKey ∧
    (apply1 Op.deleteSelected e).1.coll = e.coll ∧
    (apply1 Op.deleteSelected e).1.mode = e.mode ∧
    Event.removeRequested e.selectedKeys ∈ (apply1 Op.deleteSelected e).2 ∧
    (apply1 Op.deleteSelected e).1.focusedKey =
      (match getNextFocusKey e.coll e.selectedKeys with
        | some k => some k
        | none => e.focusedKey) := by
  simp only [apply1, deleteSelectedOp, if_pos (And.intro hr hs)]
  cases hn : getNextFocusKey e.coll e.selectedKeys <;> simp

/-- C2 witness: the amended behavior at the concrete `[A,B,C]` state with
`{B}` selected. -/
theorem deleteSelected_behavior_witness :
    (apply1 Op.deleteSelected exEngineC2).1.selectedKeys =
      exEngineC2.selectedKeys ∧
    (apply1 Op.deleteSelected exEngineC2).1.anchorKey =
      exEngineC2.anchorKey ∧
    (apply1 Op.deleteSelected exEngineC2).1.coll = exEngineC2.coll ∧
    (apply1 Op.deleteSelected exEngineC2).1.mode = exEngineC2.mode ∧
    Event.removeRequested exEngineC2.selectedKeys ∈
      (apply1 Op.deleteSelected exEngineC2).2 ∧
    (apply1 Op.deleteSelected exEngineC2).1.focusedKey =
      (match getNextFocusKey exEngineC2.coll exEngineC2.selectedKeys with
        | some k => some k
        | none => exEngineC2.focusedKey) :=
  deleteSelected_behavior exEngineC2 (by decide) (by decide)

lemma enabledKeys_subset_collKeys (c : Collection) :
    ∀ k ∈ enabledKeys c, k ∈ collKeys c := by
  intro k hk
  simp only [enabledKeys, List.mem_map] at hk
  obtain ⟨it, hit, hkey⟩ := hk
  exact hkey ▸ List.mem_map_of_mem Item.key (List.mem_of_mem_filter hit)

/-- A concrete engine state over `[A,B,C,D]` in multiple selection mode
with item `B` (key 1) selected and anchored. -/
def exEngineMulti : Engine :=
  { coll := exABCD, mode := SelectionMode.multiple, selectedKeys := [1],
    anchorKey := some 1, focusedKey := some 1, allowsRemoval := false }

/-- C8: `clearSelection` is idempotent — one call leaves the selection
empty and the anchor null, and a second call changes nothing and emits no
notification. No hypotheses are needed: this holds for every engine
state. -/
theorem clearSelection_idempotent (e : Engine) :
    (apply1 Op.clearSel ((apply1 Op.clearSel e).1)).1 =
      (apply1 Op.clearSel e).1 ∧
    (apply1 Op.clearSel e).1.selectedKeys = [] ∧
    (apply1 Op.clearSel e).1.anchorKey = none ∧
    (apply1 Op.clearSel ((apply1 Op.clearSel e).1)).2 = [] := by
  simp [apply1, clearSelection]

/-- C7: the keyboard delegate's `keyBelow` returns the nearest following
enabled key — the first enabled item among those strictly after `k` in
collection order — skipping disabled items transparently and yielding
null when no enabled key follows; in particular on `[A, B(disabled), C]`,
`keyBelow(A) = C`. -/
theorem getKeyBelow_skips_disabled (c : Collection) (pre : Collection)
    (it : Item) (rest : Collection) (hc : c = pre ++ it :: rest)
    (hnd : (collKeys c).Nodup) :
    getKeyBelow c it.key = (rest.find? (fun x => !x.disabled)).map Item.key ∧
    getKeyBelow exDis 0 = some 2 := by
  refine ⟨?_, by decide⟩
  rw [getKeyBelow_split c pre it rest hc
    (nodup_split_left c pre it rest hc hnd)]
  rfl

/-- C7 witness: the theorem applied to `[A, B(disabled), C]` at item `A`:
the first enabled item after `A` is `C` (key 2). -/
theorem getKeyBelow_skips_disabled_witness :
    (getKeyBelow exDis (Item.mk 0 false).key =
      (([⟨1, true⟩, ⟨2, false⟩] : Collection).find?
        (fun x => !x.disabled)).map Item.key ∧
    getKeyBelow exDis 0 = some 2) ∧
    (([⟨1, true⟩, ⟨2, false⟩] : Collection).find?
        (fun x => !x.disabled)).map Item.key = some 2 :=
  ⟨getKeyBelow_skips_disabled exDis [] ⟨0, false⟩ [⟨1, true⟩, ⟨2, false⟩]
    (by decide) (by decide), by decide⟩

/-- C5: every operation invoked on a key absent from the current
Collection View, and every operation invoked in a selection mode for
which it is invalid (InvalidModeOperation: `extendSelection` and
`selectAll` anywhere outside `multiple` mode — so in `single` and in
`none` — and `replaceSelection` and `toggleSelection` in `none` mode),
is a silent no-op: the state is returned unchanged and no notification
is emitted. All engine operations are total Lean functions, so no
exception can be raised by construction. -/
theorem stale_key_noop (e : Engine) (k : Nat) (hk : k ∉ collKeys e.coll) :
    apply1 (Op.replaceSel k) e = (e, []) ∧
    apply1 (Op.toggleSel k) e = (e, []) ∧
    apply1 (Op.extendSel k) e = (e, []) ∧
    (∀ b, e.mode = SelectionMode.single → apply1 (Op.extendSel b) e = (e, [])) ∧
    (∀ b, e.mode ≠ SelectionMode.multiple → apply1 (Op.extendSel b) e = (e, [])) ∧
    (e.mode ≠ SelectionMode.multiple → apply1 Op.selectAll e = (e, [])) ∧
    (∀ k2, e.mode = SelectionMode.none → apply1 (Op.replaceSel k2) e = (e, [])) ∧
    (∀ k2, e.mode = SelectionMode.none → apply1 (Op.toggleSel k2) e = (e, [])) := by
  have hk2 : k ∉ enabledKeys e.coll := fun h =>
    hk (enabledKeys_subset_collKeys e.coll k h)
  refine ⟨?_, ?_, ?_, ?_, ?_, ?_, ?_, ?_⟩
  · simp only [apply1, replaceSelection]
    rw [if_pos (Or.inr hk2)]
  · simp only [apply1, toggleSelection]
    rw [if_pos hk2]
  · simp only [apply1, extendSelection]
    by_cases hm : e.mode ≠ SelectionMode.multiple
    · rw [if_pos hm]
    · rw [if_neg hm, if_pos hk2]
  · intro b hmode
    simp [apply1, extendSelection, hmode]
  · intro b hmode
    simp only [apply1, extendSelection]
    rw [if_pos hmode]
  · intro hmode
    simp only [apply1, selectAllOp]
    rw [if_pos hmode]
  · intro k2 hmode
    simp only [apply1, replaceSelection]
    rw [if_pos (Or.inl hmode)]
  · intro k2 hmode
    simp only [apply1, toggleSelection]
    by_cases h2 : k2 ∉ enabledKeys e.coll
    · rw [if_pos h2]
    · rw [if_neg h2, hmode]

/-- A concrete engine state over `[A,B,C]` in single selection mode with
item `B` (key 1) selected and anchored. -/
def exEngineSingle : Engine :=
  { coll := exABC, mode := SelectionMode.single, selectedKeys := [1],
    anchorKey := some 1, focusedKey := some 1, allowsRemoval := false }

/-- A concrete engine state over `[A,B,C]` in selection mode `none`. -/
def exEngineNone : Engine :=
  { coll := exABC, mode := SelectionMode.none, selectedKeys := [],
    anchorKey := none, focusedKey := some 0, allowsRemoval := false }

/-- C5 witness: on a concrete state over `[A,B,C,D]`, toggling, replacing
with or extending to the absent key `99` leaves the state unchanged and
emits nothing; on concrete single-mode and none-mode states, the
invalid-mode operations (`extendSelection` and `selectAll` in `single`
and in `none`, `replaceSelection` and `toggleSelection` in `none`) leave
the state unchanged and emit nothing, even at a key present and enabled
in the collection. -/
theorem stale_key_noop_witness :
    (apply1 (Op.toggleSel 99) exEngineMulti = (exEngineMulti, []) ∧
      apply1 (Op.replaceSel 99) exEngineMulti = (exEngineMulti, []) ∧
      apply1 (Op.extendSel 99) exEngineMulti = (exEngineMulti, [])) ∧
    (apply1 (Op.extendSel 2) exEngineSingle = (exEngineSingle, []) ∧
      apply1 Op.selectAll exEngineSingle = (exEngineSingle, [])) ∧
    (apply1 (Op.extendSel 2) exEngineNone = (exEngineNone, []) ∧
      apply1 Op.selectAll exEngineNone = (exEngineNone, []) ∧
      apply1 (Op.replaceSel 2) exEngineNone = (exEngineNone, []) ∧
      apply1 (Op.toggleSel 2) exEngineNone = (exEngineNone, [])) := by
  have hm := stale_key_noop exEngineMulti 99 (by decide)
  have hs := stale_key_noop exEngineSingle 99 (by decide)
  have hn := stale_key_noop exEngineNone 99 (by decide)
  refine ⟨⟨hm.2.1, hm.1, hm.2.2.1⟩, ⟨?_, ?_⟩, ⟨?_, ?_, ?_, ?_⟩⟩
  · exact hs.2.2.2.1 2 (by decide)
  · exact hs.2.2.2.2.2.1 (by decide)
  · exact hn.2.2.2.2.1 2 (by decide)
  · exact hn.2.2.2.2.2.1 (by decide)
  · exact hn.2.2.2.2.2.2.1 2 (by decide)
  · exact hn.2.2.2.2.2.2.2 2 (by decide)

/-- C6: in multiple selection mode, `extendSelection` replaces the entire
prior selection with the inclusive ordered range between the anchor and
the target key in collection order (delegate adjacency skips disabled keys
transparently, so the range holds its enabled keys), leaving the anchor
unchanged; in particular on `[A,B,C,D]` with anchor `B`,
`extendSelection(B, D)` yields `selectedKeys = {B,C,D}`. -/
theorem extendSelection_range (e : Engine) (a b : Nat)
    (hm : e.mode = SelectionMode.multiple) (ha : e.anchorKey = some a)
    (hae : a ∈ enabledKeys e.coll) (hbe : b ∈ enabledKeys e.coll) :
    ((apply1 (Op.extendSel b) e).1.selectedKeys = rangeKeys e.coll a b ∧
      (apply1 (Op.extendSel b) e).1.anchorKey = some a) ∧
    (apply1 (Op.extendSel 3) exEngineMulti).1.selectedKeys = [1, 2, 3] := by
  have hac : a ∈ collKeys e.coll := enabledKeys_subset_collKeys e.coll a hae
  refine ⟨?_, by decide⟩
  simp only [apply1, extendSelection, hm, ha]
  rw [if_neg (by simp), if_neg (by simpa using hbe), if_neg (by simpa using hac)]
  constructor
  · by_cases hch : e.selectedKeys = rangeKeys e.coll a b <;> simp [hch]
  · by_cases hch : e.selectedKeys = rangeKeys e.coll a b <;> simp [hch, ha]

/-- C6 witness: the theorem applied to the `[A,B,C,D]` state with anchor
`B` (key 1) and target `D` (key 3); the computed range is `[1,2,3]`,
i.e. `{B,C,D}`. -/
theorem extendSelection_range_witness :
    (apply1 (Op.extendSel 3) exEngineMulti).1.selectedKeys =
      rangeKeys exEngineMulti.coll 1 3 ∧
    rangeKeys exEngineMulti.coll 1 3 = [1, 2, 3] :=
  ⟨(extendSelection_range exEngineMulti 1 3 (by decide) (by decide)
      (by decide) (by decide)).1.1, by decide⟩

lemma firstEnabled_mem (l : Collection) (k : Nat) (h : firstEnabled l = some k) :
    ∃ it ∈ l, it.key = k ∧ it.disabled = false := by
  rw [firstEnabled] at h
  cases hf : l.find? (fun it => !it.disabled) with
  | none => rw [hf] at h; simp at h
  | some it =>
    rw [hf] at h
    simp at h
    refine ⟨it, List.mem_of_find?_eq_some hf, h, ?_⟩
    have := List.find?_some hf
    simpa using this

lemma getKeyBelow_mem (c : Collection) (k k2 : Nat)
    (h : getKeyBelow c k = some k2) : k2 ∈ collKeys c := by
  rw [getKeyBelow] at h
  by_cases hm : k ∈ collKeys c
  · rw [if_pos hm] at h
    obtain ⟨it, hit, hkey, _⟩ := firstEnabled_mem _ _ h
    have hsub : List.Sublist ((c.dropWhile (fun it => it.key != k)).drop 1) c :=
      List.Sublist.trans (List.drop_sublist 1 _) (List.dropWhile_sublist _)
    exact hkey ▸ List.mem_map_of_mem Item.key (hsub.subset hit)
  · rw [if_neg hm] at h
    simp at h

lemma getKeyAbove_mem (c : Collection) (k k2 : Nat)
    (h : getKeyAbove c k = some k2) : k2 ∈ collKeys c := by
  rw [getKeyAbove] at h
  by_cases hm : k ∈ collKeys c
  · rw [if_pos hm] at h
    obtain ⟨it, hit, hkey, _⟩ := firstEnabled_mem _ _ h
    have hit2 : it ∈ c.takeWhile (fun it => it.key != k) :=
      List.mem_reverse.mp hit
    exact hkey ▸ List.mem_map_of_mem Item.key
      ((List.takeWhile_sublist _).subset hit2)
  · rw [if_neg hm] at h
    simp at h

lemma getFirstKey_mem (c : Collection) (k : Nat)
    (h : getFirstKey c = some k) : k ∈ collKeys c := by
  obtain ⟨it, hit, hkey, _⟩ := firstEnabled_mem _ _ h
  exact hkey ▸ List.mem_map_of_mem Item.key hit

lemma getLastKey_mem (c : Collection) (k : Nat)
    (h : getLastKey c = some k) : k ∈ collKeys c := by
  obtain ⟨it, hit, hkey, _⟩ := firstEnabled_mem _ _ h
  exact hkey ▸ List.mem_map_of_mem Item.key (List.mem_reverse.mp hit)

lemma skipRemoved_preserve (step : Nat → Option Nat) (r : List Nat)
    (P : Nat → Prop) (hstep : ∀ m m2, step m = some m2 → P m2) :
    ∀ (fuel : Nat) (x : Option Nat) (k : Nat),
      (∀ m, x = some m → P m) → skipRemoved step r fuel x = some k → P k := by
  intro fuel
  induction fuel with
  | zero =>
    intro x k hx h
    cases x with
    | none => simp [skipRemoved_none] at h
    | some k0 =>
      simp [skipRemoved] at h
      exact h.2 ▸ hx k0 rfl
  | succ f ih =>
    intro x k hx h
    cases x with
    | none => simp [skipRemoved_none] at h
    | some k0 =>
      by_cases hm : k0 ∈ r
      · have he : skipRemoved step r (f + 1) (some k0) =
            skipRemoved step r f (step k0) := by
          simp [skipRemoved, hm]
        rw [he] at h
        exact ih (step k0) k (fun m hme => hstep k0 m hme) h
      · have he : skipRemoved step r (f + 1) (some k0) = some k0 := by
          simp [skipRemoved, hm]
        rw [he] at h
        obtain rfl : k0 = k := by injection h
        exact hx _ rfl

lemma getNextFocusKey_mem (c : Collection) (r : List Nat) (k : Nat)
    (h : getNextFocusKey c r = some k) : k ∈ collKeys c := by
  simp only [getNextFocusKey] at h
  cases hf : skipRemoved (getKeyBelow c) r c.length
      ((lastRemovedKey c r).bind (getKeyBelow c)) with
  | some k0 =>
    rw [hf] at h
    simp at h
    refine h ▸ skipRemoved_preserve (getKeyBelow c) r (· ∈ collKeys c)
      (fun m m2 hm => getKeyBelow_mem c m m2 hm) c.length _ k0 ?_ hf
    intro m hm
    cases hl : lastRemovedKey c r with
    | none => rw [hl] at hm; simp at hm
    | some lk =>
      rw [hl] at hm
      simp at hm
      exact getKeyBelow_mem c lk m hm
  | none =>
    rw [hf] at h
    refine skipRemoved_preserve (getKeyAbove c) r (· ∈ collKeys c)
      (fun m m2 hm => getKeyAbove_mem c m m2 hm) c.length _ k ?_ h
    intro m hm
    cases hl : firstRemovedKey c r with
    | none => rw [hl] at hm; simp at hm
    | some fk =>
      rw [hl] at hm
      simp at hm
      exact getKeyAbove_mem c fk m hm

lemma focusInv_of_fields (e e2 : Engine) (h : FocusInv e)
    (hf : e2.focusedKey = e.focusedKey) (hc : e2.coll = e.coll) :
    FocusInv e2 := by
  intro k hk
  rw [hc]
  exact h k (hf ▸ hk)

lemma replaceSelection_fields (k : Nat) (e : Engine) :
    (replaceSelection k e).1.focusedKey = e.focusedKey ∧
    (replaceSelection k e).1.coll = e.coll := by
  rw [replaceSelection]
  split_ifs <;> simp

lemma toggleSelection_fields (k : Nat) (e : Engine) :
    (toggleSelection k e).1.focusedKey = e.focusedKey ∧
    (toggleSelection k e).1.coll = e.coll := by
  by_cases h1 : k ∉ enabledKeys e.coll
  · simp [toggleSelection, h1]
  · cases hm : e.mode with
    | none => simp [toggleSelection, h1, hm]
    | single =>
      by_cases h2 : k ∈ e.selectedKeys <;> simp [toggleSelection, h1, hm, h2]
    | multiple =>
      by_cases h2 : k ∈ e.selectedKeys <;> simp [toggleSelection, h1, hm, h2]

lemma extendSelection_fields (b : Nat) (e : Engine) :
    (extendSelection b e).1.focusedKey = e.focusedKey ∧
    (extendSelection b e).1.coll = e.coll := by
  by_cases h1 : e.mode ≠ SelectionMode.multiple
  · simp [extendSelection, h1]
  · by_cases h2 : b ∉ enabledKeys e.coll
    · simp [extendSelection, h1, h2]
    · cases ha : e.anchorKey with
      | none => simp [extendSelection, h1, h2, ha]
      | some a =>
        by_cases h3 : a ∉ collKeys e.coll <;>
          simp [extendSelection, h1, h2, ha, h3]

lemma selectAllOp_fields (e : Engine) :
    (selectAllOp e).1.focusedKey = e.focusedKey ∧
    (selectAllOp e).1.coll = e.coll := by
  rw [selectAllOp]
  split_ifs <;> simp

lemma clearSelection_fields (e : Engine) :
    (clearSelection e).1.focusedKey = e.focusedKey ∧
    (clearSelection e).1.coll = e.coll := by
  rw [clearSelection]
  simp

lemma navigate_focusInv (q : Option Nat) (e : Engine)
    (hq : ∀ k, q = some k → k ∈ collKeys e.coll) (h : FocusInv e) :
    FocusInv (navigate q e).1 := by
  cases q with
  | none => simpa [navigate] using h
  | some k =>
    by_cases hf : e.focusedKey = some k
    · simpa [navigate, hf] using h
    · intro k2 hk2
      simp [navigate, hf] at hk2 ⊢
      exact hk2 ▸ hq k rfl

lemma focusInv_deleteSelected (e : Engine) (h : FocusInv e) :
    FocusInv (deleteSelectedOp e).1 := by
  simp only [deleteSelectedOp]
  split_ifs with h1
  · cases hn : getNextFocusKey e.coll e.selectedKeys with
    | some k =>
      simp only [hn]
      intro k2 hk2
      simp at hk2 ⊢
      exact hk2 ▸ getNextFocusKey_mem e.coll e.selectedKeys k hn
    | none =>
      simp only [hn]
      exact h
  · exact h

lemma focusInv_snapshot (c : Collection) (e : Engine) :
    FocusInv (applySnapshot c e).1 := by
  intro k hk
  simp only [applySnapshot] at hk ⊢
  cases hf : e.focusedKey with
  | none => rw [hf] at hk; simp at hk
  | some k0 =>
    rw [hf] at hk
    by_cases hm : k0 ∈ collKeys c
    · simp [hm] at hk
      exact hk ▸ hm
    · simp [hm] at hk
      exact getFirstKey_mem c k hk

lemma focusInv_apply1 (op : Op) (e : Engine) (h : FocusInv e) :
    FocusInv (apply1 op e).1 := by
  cases op with
  | replaceSel k =>
    exact focusInv_of_fields e _ h (replaceSelection_fields k e).1
      (replaceSelection_fields k e).2
  | toggleSel k =>
    exact focusInv_of_fields e _ h (toggleSelection_fields k e).1
      (toggleSelection_fields k e).2
  | extendSel k =>
    exact focusInv_of_fields e _ h (extendSelection_fields k e).1
      (extendSelection_fields k e).2
  | selectAll =>
    exact focusInv_of_fields e _ h (selectAllOp_fields e).1
      (selectAllOp_fields e).2
  | clearSel =>
    exact focusInv_of_fields e _ h (clearSelection_fields e).1
      (clearSelection_fields e).2
  | navDown =>
    refine navigate_focusInv _ e ?_ h
    intro k hk
    cases hf : e.focusedKey with
    | none => rw [hf] at hk; simp at hk
    | some k0 =>
      rw [hf] at hk
      simp at hk
      exact getKeyBelow_mem e.coll k0 k hk
  | navUp =>
    refine navigate_focusInv _ e ?_ h
    intro k hk
    cases hf : e.focusedKey with
    | none => rw [hf] at hk; simp at hk
    | some k0 =>
      rw [hf] at hk
      simp at hk
      exact getKeyAbove_mem e.coll k0 k hk
  | navHome =>
    exact navigate_focusInv _ e (fun k hk => getFirstKey_mem e.coll k hk) h
  | navEnd =>
    exact navigate_focusInv _ e (fun k hk => getLastKey_mem e.coll k hk) h
  | deleteSelected => exact focusInv_deleteSelected e h
  | snapshot c => exact focusInv_snapshot c e

lemma focusInv_applyOps (ops : List Op) :
    ∀ e, FocusInv e → FocusInv (applyOps ops e) := by
  induction ops with
  | nil => intro e h; simpa [applyOps] using h
  | cons op ops ih =>
    intro e h
    have hstep : applyOps (op :: ops) e = applyOps ops (apply1 op e).1 := rfl
    rw [hstep]
    exact ih _ (focusInv_apply1 op e h)

/-- C4: in every reachable engine state the focused key is null or the key
of an item present in the current Collection View: the focus invariant is
preserved by every engine operation, and — whatever the prior state, even
one with a dangling focus — a Collection View replacement revalidates the
focus against the new key set and repairs it, so it is never left
referencing a removed item. -/
theorem focusedKey_valid (e : Engine) (ops : List Op) (h : FocusInv e) :
    FocusInv (applyOps ops e) ∧
    ∀ c, FocusInv ((apply1 (Op.snapshot c) e).1) :=
  ⟨focusInv_applyOps ops e h, fun c => focusInv_snapshot c e⟩

/-- C4 witness: the invariant after a concrete operation sequence
(navigation, deletion, snapshot replacement) from a concrete valid
state. -/
theorem focusedKey_valid_witness :
    FocusInv (applyOps [Op.navDown, Op.deleteSelected, Op.snapshot exABC]
      exEngineMulti) ∧
    FocusInv ((apply1 (Op.snapshot exDis) exEngineMulti).1) :=
  ⟨(focusedKey_valid exEngineMulti
      [Op.navDown, Op.deleteSelected, Op.snapshot exABC] (by decide)).1,
    (focusedKey_valid exEngineMulti [] (by decide)).2 exDis⟩

lemma slice_filter_map_subset (c : Collection) (m n : Nat) :
    ∀ k ∈ (((c.drop m).take n).filter (fun it => !it.disabled)).map Item.key,
      k ∈ enabledKeys c := by
  intro k hk
  simp only [List.mem_map] at hk
  obtain ⟨it, hit, hkey⟩ := hk
  have h1 : it ∈ (c.drop m).take n := List.mem_of_mem_filter hit
  have h2 : (!it.disabled) = true := (List.mem_filter.mp hit).2
  have h3 : it ∈ c :=
    ((List.take_sublist n _).trans (List.drop_sublist m c)).subset h1
  exact hkey ▸ List.mem_map_of_mem Item.key (List.mem_filter.mpr ⟨h3, h2⟩)

lemma slice_filter_map_nodup (c : Collection) (m n : Nat)
    (hnd : (collKeys c).Nodup) :
    ((((c.drop m).take n).filter (fun it => !it.disabled)).map Item.key).Nodup := by
  have hsub : List.Sublist (((c.drop m).take n).filter (fun it => !it.disabled)) c :=
    (List.filter_sublist _).trans
      ((List.take_sublist n _).trans (List.drop_sublist m c))
  exact List.Nodup.sublist (hsub.map Item.key) hnd

lemma enabledKeys_nodup (c : Collection) (hnd : (collKeys c).Nodup) :
    (enabledKeys c).Nodup :=
  List.Nodup.sublist ((List.filter_sublist c).map Item.key) hnd

lemma rangeKeys_subset_enabledKeys (c : Collection) (a b : Nat) :
    ∀ k ∈ rangeKeys c a b, k ∈ enabledKeys c := by
  intro k hk
  simp only [rangeKeys] at hk
  split_ifs at hk with hg hij
  · exact slice_filter_map_subset c _ _ k hk
  · exact slice_filter_map_subset c _ _ k hk
  · simp at hk

lemma rangeKeys_nodup (c : Collection) (a b : Nat)
    (hnd : (collKeys c).Nodup) : (rangeKeys c a b).Nodup := by
  simp only [rangeKeys]
  split_ifs with hg hij
  · exact slice_filter_map_nodup c _ _ hnd
  · exact slice_filter_map_nodup c _ _ hnd
  · simp

lemma mem_take_of_drop_cons (l : List Item) :
    ∀ (m : Nat) (x : Item) (t : List Item),
      l.drop m = x :: t → x ∈ l.take (m + 1) := by
  induction l with
  | nil => intro m x t h; simp at h
  | cons y l ih =>
    intro m x t h
    cases m with
    | zero =>
      simp only [List.drop_zero] at h
      have : y = x := by injection h
      simp [this]
    | succ m2 =>
      simp only [List.drop_succ_cons] at h
      simp only [List.take_succ_cons]
      exact List.mem_cons_of_mem y (ih m2 x t h)

lemma keyIdx_split (c : Collection) (pre : Collection) (it : Item)
    (rest : Collection) (hc : c = pre ++ it :: rest)
    (hpre : ∀ x ∈ pre, x.key ≠ it.key) :
    keyIdx c it.key = pre.length ∧ c.drop pre.length = it :: rest := by
  constructor
  · rw [keyIdx, hc, takeWhile_keyNe pre it rest hpre]
  · rw [hc]
    exact List.drop_left pre (it :: rest)

lemma enabled_item_of_nodup (c : Collection) (pre : Collection) (it : Item)
    (rest : Collection) (hc : c = pre ++ it :: rest)
    (hnd : (collKeys c).Nodup) (ha : it.key ∈ enabledKeys c) :
    it.disabled = false := by
  simp only [enabledKeys, List.mem_map] at ha
  obtain ⟨ita, hita, hkey⟩ := ha
  have h1 : ita ∈ c := List.mem_of_mem_filter hita
  have h2 : (!ita.disabled) = true := (List.mem_filter.mp hita).2
  subst hc
  rcases List.mem_append.mp h1 with hpre2 | hrest
  · exact absurd hkey (nodup_split_left _ pre it rest rfl hnd ita hpre2)
  · rcases List.mem_cons.mp hrest with rfl | hrest2
    · simpa using h2
    · exact absurd hkey (nodup_split_right _ pre it rest rfl hnd ita hrest2)

lemma self_mem_rangeKeys (c : Collection) (a b : Nat)
    (hnd : (collKeys c).Nodup) (hae : a ∈ enabledKeys c)
    (hbc : b ∈ collKeys c) : a ∈ rangeKeys c a b := by
  have hac : a ∈ collKeys c := enabledKeys_subset_collKeys c a hae
  obtain ⟨pre, ita, resta, hca, hka, hprea⟩ := mem_collKeys_split c a hac
  obtain ⟨preb, itb, restb, hcb, hkb, hpreb⟩ := mem_collKeys_split c b hbc
  subst hka
  subst hkb
  have hdisa : ita.disabled = false :=
    enabled_item_of_nodup c pre ita resta hca hnd hae
  obtain ⟨hia, hdropa⟩ := keyIdx_split c pre ita resta hca hprea
  obtain ⟨hib, hdropb⟩ := keyIdx_split c preb itb restb hcb hpreb
  simp only [rangeKeys]
  rw [if_pos ⟨hac, hbc⟩]
  by_cases hij : keyIdx c ita.key ≤ keyIdx c itb.key
  · rw [if_pos hij]
    rw [hia, hib] at hij ⊢
    rw [hdropa]
    have htake : preb.length + 1 - pre.length = (preb.length - pre.length) + 1 := by
      omega
    rw [htake, List.take_succ_cons]
    refine List.mem_map_of_mem Item.key
      (List.mem_filter.mpr ⟨List.mem_cons_self _ _, ?_⟩)
    simp [hdisa]
  · rw [if_neg hij]
    rw [hia, hib] at hij ⊢
    have hlt : preb.length < pre.length := by omega
    rw [hdropb]
    have htake : pre.length + 1 - preb.length = (pre.length - preb.length) + 1 := by
      omega
    rw [htake, List.take_succ_cons]
    have hrestb : restb = c.drop (preb.length + 1) := by
      have h1 : (c.drop preb.length).drop 1 = c.drop (preb.length + 1) :=
        List.drop_drop 1 preb.length c
      rw [hdropb] at h1
      simpa using h1
    have hdropr : restb.drop (pre.length - preb.length - 1) = ita :: resta := by
      rw [hrestb, List.drop_drop]
      have heq2 : preb.length + 1 + (pre.length - preb.length - 1) = pre.length := by
        omega
      rw [heq2]
      exact hdropa
    have hmem : ita ∈ restb.take ((pre.length - preb.length - 1) + 1) :=
      mem_take_of_drop_cons restb _ ita resta hdropr
    have heq3 : (pre.length - preb.length - 1) + 1 = pre.length - preb.length := by
      omega
    rw [heq3] at hmem
    refine List.mem_map_of_mem Item.key
      (List.mem_filter.mpr ⟨List.mem_cons_of_mem itb hmem, ?_⟩)
    simp [hdisa]

lemma selInv_of_fields (e e2 : Engine) (h : SelInv e)
    (hsel : e2.selectedKeys = e.selectedKeys)
    (hanch : e2.anchorKey = e.anchorKey) (hcoll : e2.coll = e.coll)
    (hmode : e2.mode = e.mode) : SelInv e2 := by
  unfold SelInv
  rw [hsel, hanch, hcoll, hmode]
  exact h

lemma selInv_replaceSelection (k : Nat) (e : Engine) (h : SelInv e) :
    SelInv (replaceSelection k e).1 := by
  by_cases h1 : e.mode = SelectionMode.none ∨ k ∉ enabledKeys e.coll
  · rw [replaceSelection, if_pos h1]
    exact h
  · rw [replaceSelection, if_neg h1]
    push_neg at h1
    refine ⟨?_, by simp, ?_, ?_, ?_, h.2.2.2.2.2⟩
    · intro x hx
      simp at hx
      exact hx ▸ h1.2
    · intro _
      simp
    · intro hm
      exact absurd hm h1.1
    · intro a ha
      simp at ha ⊢
      exact ha.symm

lemma selInv_toggleSelection (k : Nat) (e : Engine) (h : SelInv e) :
    SelInv (toggleSelection k e).1 := by
  obtain ⟨hsub, hnd, hsingle, hnone, hanchor, hcnd⟩ := h
  by_cases h1 : k ∉ enabledKeys e.coll
  · rw [toggleSelection, if_pos h1]
    exact ⟨hsub, hnd, hsingle, hnone, hanchor, hcnd⟩
  · push_neg at h1
    cases hm : e.mode with
    | none =>
      rw [toggleSelection, if_neg (not_not.mpr h1)]
      simp only [hm]
      exact ⟨hsub, hnd, hsingle, hnone, hanchor, hcnd⟩
    | single =>
      rw [toggleSelection, if_neg (not_not.mpr h1)]
      simp only [hm]
      by_cases h2 : k ∈ e.selectedKeys
      · rw [if_pos h2]
        refine ⟨by simp, by simp, by simp, by simp, ?_, hcnd⟩
        intro a ha
        simp at ha
      · rw [if_neg h2]
        refine ⟨?_, by simp, by simp, ?_, ?_, hcnd⟩
        · intro x hx
          simp at hx
          exact hx ▸ h1
        · intro hmm
          simp [hm] at hmm
        · intro a ha
          simp at ha ⊢
          exact ha.symm
    | multiple =>
      rw [toggleSelection, if_neg (not_not.mpr h1)]
      simp only [hm]
      by_cases h2 : k ∈ e.selectedKeys
      · rw [if_pos h2]
        refine ⟨?_, ?_, ?_, ?_, ?_, hcnd⟩
        · intro x hx
          exact hsub x (List.mem_of_mem_erase hx)
        · exact hnd.erase k
        · intro hmm
          simp [hm] at hmm
        · intro hmm
          simp [hm] at hmm
        · intro a ha
          by_cases h3 : e.anchorKey = some k
          · simp [h3] at ha
          · simp [h3] at ha
            have hne : a ≠ k := fun heq => h3 (heq ▸ ha)
            exact (List.mem_erase_of_ne hne).mpr (hanchor a ha)
      · rw [if_neg h2]
        refine ⟨?_, ?_, ?_, ?_, ?_, hcnd⟩
        · intro x hx
          simp at hx
          rcases hx with rfl | hx
          · exact h1
          · exact hsub x hx
        · exact List.nodup_cons.mpr ⟨h2, hnd⟩
        · intro hmm
          simp [hm] at hmm
        · intro hmm
          simp [hm] at hmm
        · intro a ha
          simp at ha ⊢
          left
          exact ha.symm

lemma selInv_extendSelection (b : Nat) (e : Engine) (h : SelInv e) :
    SelInv (extendSelection b e).1 := by
  obtain ⟨hsub, hnd, hsingle, hnone, hanchor, hcnd⟩ := h
  by_cases h1 : e.mode ≠ SelectionMode.multiple
  · rw [extendSelection, if_pos h1]
    exact ⟨hsub, hnd, hsingle, hnone, hanchor, hcnd⟩
  · push_neg at h1
    by_cases h2 : b ∉ enabledKeys e.coll
    · rw [extendSelection, if_neg (not_not.mpr h1), if_pos h2]
      exact ⟨hsub, hnd, hsingle, hnone, hanchor, hcnd⟩
    · push_neg at h2
      cases ha : e.anchorKey with
      | none =>
        rw [extendSelection, if_neg (not_not.mpr h1), if_neg (not_not.mpr h2)]
        simp only [ha]
        exact ⟨hsub, hnd, hsingle, hnone, hanchor, hcnd⟩
      | some a =>
        rw [extendSelection, if_neg (not_not.mpr h1), if_neg (not_not.mpr h2)]
        simp only [ha]
        have haen : a ∈ enabledKeys e.coll := hsub a (hanchor a ha)
        have hac : a ∈ collKeys e.coll := enabledKeys_subset_collKeys _ _ haen
        rw [if_neg (not_not.mpr hac)]
        refine ⟨?_, ?_, ?_, ?_, ?_, hcnd⟩
        · intro x hx
          exact rangeKeys_subset_enabledKeys e.coll a b x hx
        · exact rangeKeys_nodup e.coll a b hcnd
        · intro hmm
          simp [h1] at hmm
        · intro hmm
          simp [h1] at hmm
        · intro x hx
          obtain rfl : a = x := by
            have hax : some a = some x := hx
            injection hax
          exact self_mem_rangeKeys e.coll a b hcnd haen
            (enabledKeys_subset_collKeys _ _ h2)

lemma selInv_selectAll (e : Engine) (h : SelInv e) :
    SelInv (selectAllOp e).1 := by
  obtain ⟨hsub, hnd, hsingle, hnone, hanchor, hcnd⟩ := h
  by_cases h1 : e.mode ≠ SelectionMode.multiple
  · rw [selectAllOp, if_pos h1]
    exact ⟨hsub, hnd, hsingle, hnone, hanchor, hcnd⟩
  · push_neg at h1
    rw [selectAllOp, if_neg (not_not.mpr h1)]
    refine ⟨fun k hk => hk, enabledKeys_nodup e.coll hcnd, ?_, ?_, ?_, hcnd⟩
    · intro hmm
      simp [h1] at hmm
    · intro hmm
      simp [h1] at hmm
    · intro a ha
      exact hsub a (hanchor a ha)

lemma selInv_clearSelection (e : Engine) (h : SelInv e) :
    SelInv (clearSelection e).1 := by
  refine ⟨?_, by simp [clearSelection], by simp [clearSelection],
    by simp [clearSelection], ?_, h.2.2.2.2.2⟩
  · intro x hx
    simp [clearSelection] at hx
  · intro a ha
    simp [clearSelection] at ha

lemma selInv_snapshot (c : Collection) (e : Engine) (h : SelInv e)
    (hcnd : (collKeys c).Nodup) : SelInv (applySnapshot c e).1 := by
  obtain ⟨hsub, hnd, hsingle, hnone, hanchor, _⟩ := h
  refine ⟨?_, ?_, ?_, ?_, ?_, hcnd⟩
  · intro k hk
    have hmem : k ∈ e.selectedKeys.filter
        (fun k => (enabledKeys c).contains k) := hk
    have := (List.mem_filter.mp hmem).2
    simpa using this
  · exact hnd.filter _
  · intro hm
    calc (e.selectedKeys.filter
        (fun k => (enabledKeys c).contains k)).length
        ≤ e.selectedKeys.length := List.length_filter_le _ _
      _ ≤ 1 := hsingle hm
  · intro hm
    have hsel : e.selectedKeys = [] := hnone hm
    show e.selectedKeys.filter (fun k => (enabledKeys c).contains k) = []
    rw [hsel]
    rfl
  · intro a ha
    have ha2 : (match e.anchorKey with
        | some a0 =>
          if a0 ∈ e.selectedKeys.filter (fun k => (enabledKeys c).contains k)
          then some a0 else none
        | none => none) = some a := ha
    cases hae : e.anchorKey with
    | none =>
      rw [hae] at ha2
      simp at ha2
    | some a0 =>
      rw [hae] at ha2
      change (if a0 ∈ e.selectedKeys.filter
          (fun k => (enabledKeys c).contains k)
        then some a0 else none) = some a at ha2
      by_cases hmem : a0 ∈ e.selectedKeys.filter
          (fun k => (enabledKeys c).contains k)
      · rw [if_pos hmem] at ha2
        obtain rfl : a0 = a := by injection ha2
        exact hmem
      · rw [if_neg hmem] at ha2
        simp at ha2

lemma navigate_selFields (q : Option Nat) (e : Engine) :
    (navigate q e).1.selectedKeys = e.selectedKeys ∧
    (navigate q e).1.anchorKey = e.anchorKey ∧
    (navigate q e).1.coll = e.coll ∧
    (navigate q e).1.mode = e.mode := by
  cases q with
  | none => simp [navigate]
  | some k => by_cases hf : e.focusedKey = some k <;> simp [navigate, hf]

lemma deleteSelectedOp_selFields (e : Engine) :
    (deleteSelectedOp e).1.selectedKeys = e.selectedKeys ∧
    (deleteSelectedOp e).1.anchorKey = e.anchorKey ∧
    (deleteSelectedOp e).1.coll = e.coll ∧
    (deleteSelectedOp e).1.mode = e.mode := by
  simp only [deleteSelectedOp]
  split_ifs with h1
  · cases hn : getNextFocusKey e.coll e.selectedKeys <;> simp [hn]
  · simp

lemma selInv_apply1 (op : Op) (e : Engine) (h : SelInv e) (hwf : OpWf op) :
    SelInv (apply1 op e).1 := by
  cases op with
  | replaceSel k => exact selInv_replaceSelection k e h
  | toggleSel k => exact selInv_toggleSelection k e h
  | extendSel k => exact selInv_extendSelection k e h
  | selectAll => exact selInv_selectAll e h
  | clearSel => exact selInv_clearSelection e h
  | navDown =>
    obtain ⟨h1, h2, h3, h4⟩ := navigate_selFields
      ((e.focusedKey).bind (getKeyBelow e.coll)) e
    exact selInv_of_fields e _ h h1 h2 h3 h4
  | navUp =>
    obtain ⟨h1, h2, h3, h4⟩ := navigate_selFields
      ((e.focusedKey).bind (getKeyAbove e.coll)) e
    exact selInv_of_fields e _ h h1 h2 h3 h4
  | navHome =>
    obtain ⟨h1, h2, h3, h4⟩ := navigate_selFields (getFirstKey e.coll) e
    exact selInv_of_fields e _ h h1 h2 h3 h4
  | navEnd =>
    obtain ⟨h1, h2, h3, h4⟩ := navigate_selFields (getLastKey e.coll) e
    exact selInv_of_fields e _ h h1 h2 h3 h4
  | deleteSelected =>
    obtain ⟨h1, h2, h3, h4⟩ := deleteSelectedOp_selFields e
    exact selInv_of_fields e _ h h1 h2 h3 h4
  | snapshot c => exact selInv_snapshot c e h hwf

lemma selInv_applyOps (ops : List Op) :
    ∀ e, SelInv e → (∀ op ∈ ops, OpWf op) → SelInv (applyOps ops e) := by
  induction ops with
  | nil => intro e h _; simpa [applyOps] using h
  | cons op ops ih =>
    intro e h hwf
    have hstep : applyOps (op :: ops) e = applyOps ops (apply1 op e).1 := rfl
    rw [hstep]
    exact ih _ (selInv_apply1 op e h (hwf op (by simp)))
      (fun op2 hop2 => hwf op2 (by simp [hop2]))

/-- C3: the SelectionState invariant holds after any sequence of Selection
Manager operations and Collection View replacements (every snapshot
supplied by the host carrying unique keys, as the data model guarantees):
`selectedKeys` stays a duplicate-free subset of the enabled keys of the
current collection (so it never contains a disabled or absent key),
`single` mode never holds more than one selected key, `none` mode holds
none, and `anchorKey` is null or a member of `selectedKeys`. -/
theorem selection_invariant (e : Engine) (ops : List Op) (h : SelInv e)
    (hwf : ∀ op ∈ ops, OpWf op) : SelInv (applyOps ops e) :=
  selInv_applyOps ops e h hwf

/-- C3 witness: the invariant after a concrete operation sequence
(toggle, range extension, snapshot replacement, select-all, clear) from a
concrete valid state. -/
theorem selection_invariant_witness :
    SelInv (applyOps [Op.toggleSel 2, Op.extendSel 3, Op.snapshot exABC,
      Op.selectAll, Op.clearSel] exEngineMulti) :=
  selection_invariant exEngineMulti
    [Op.toggleSel 2, Op.extendSel 3, Op.snapshot exABC, Op.selectAll,
      Op.clearSel] (by decide) (by decide)
